import Mathlib

noncomputable section

/-!
Shallow embedding of `src/bezier/src/flatten_cubic.rs` (cubic Bézier
flattening, push and pull APIs).  The `f32` scalars of the source are
idealised as real numbers; `sqrt`/`hypot` are the exact real operations.
The geometric primitives (`Point` arithmetic, `split`/`after_split` on
`CubicBezierSegment`, the `UpToTwo` container) live outside this
repository and are modelled from the spec where indicated.
-/

/-- A 2D point.  The source distinguishes points from vectors
(`to_vector()` conversions); both are coordinate pairs and the
conversions are identities on coordinates, so we collapse the two. -/
structure Point where
  x : ℝ
  y : ℝ

instance : Add Point := ⟨fun a b => ⟨a.x + b.x, a.y + b.y⟩⟩

instance : Sub Point := ⟨fun a b => ⟨a.x - b.x, a.y - b.y⟩⟩

/-- Scalar multiplication on the right, as in the source's `vector * 2.0`. -/
instance : HMul Point ℝ Point := ⟨fun a s => ⟨a.x * s, a.y * s⟩⟩

theorem Point.ext_xy {a b : Point} (hx : a.x = b.x) (hy : a.y = b.y) : a = b := by
  cases a; cases b; cases hx; cases hy; rfl

@[simp] theorem Point.add_x (a b : Point) : (a + b).x = a.x + b.x := rfl
@[simp] theorem Point.add_y (a b : Point) : (a + b).y = a.y + b.y := rfl
@[simp] theorem Point.sub_x (a b : Point) : (a - b).x = a.x - b.x := rfl
@[simp] theorem Point.sub_y (a b : Point) : (a - b).y = a.y - b.y := rfl
@[simp] theorem Point.hmul_x (a : Point) (s : ℝ) : (a * s).x = a.x * s := rfl
@[simp] theorem Point.hmul_y (a : Point) (s : ℝ) : (a * s).y = a.y * s := rfl

/-- Modelled from the spec: the external scalar `hypot` is the
Euclidean-safe hypotenuse, i.e. the Euclidean norm of `(x, y)`. -/
def hypot (x y : ℝ) : ℝ := Real.sqrt (x * x + y * y)

/-- A cubic Bézier segment: start point, two control points, end point.
`from` and `to` are Lean keywords, hence the field names `from_` and `to_`. -/
structure CubicBezierSegment where
  from_ : Point
  ctrl1 : Point
  ctrl2 : Point
  to_ : Point

/-- Linear interpolation between two points, exact over ℝ. -/
def lerp (a b : Point) (t : ℝ) : Point :=
  ⟨a.x + (b.x - a.x) * t, a.y + (b.y - a.y) * t⟩

/-- Modelled from the spec: the external `CubicBezierSegment::split(t)`
returns geometrically exact sub-segments under standard Bézier
reparameterization (de Casteljau subdivision).  The first component is
the restriction to `[0, t]`, the second the restriction to `[t, 1]`;
the outer endpoints are taken over unchanged. -/
def CubicBezierSegment.split (c : CubicBezierSegment) (t : ℝ) :
    CubicBezierSegment × CubicBezierSegment :=
  let a := lerp c.from_ c.ctrl1 t
  let b := lerp c.ctrl1 c.ctrl2 t
  let d := lerp c.ctrl2 c.to_ t
  let e := lerp a b t
  let f := lerp b d t
  let g := lerp e f t
  (⟨c.from_, a, e, g⟩, ⟨g, f, d, c.to_⟩)

/-- Modelled from the spec: the external `after_split(t)` returns only
the `[t, 1]` remainder of the de Casteljau subdivision. -/
def CubicBezierSegment.after_split (c : CubicBezierSegment) (t : ℝ) :
    CubicBezierSegment :=
  (c.split t).2

/-- The cross product `v1 × v2` of the step estimator, written in the
source as `v2.x * v1.y - v2.y * v1.x` on `v1 = ctrl1 - from` and
`v2 = ctrl2 - from`. -/
def step_cross (bezier : CubicBezierSegment) : ℝ :=
  let v1 := bezier.ctrl1 - bezier.from_
  let v2 := bezier.ctrl2 - bezier.from_
  v2.x * v1.y - v2.y * v1.x

/-- The `hypot(v1.x, v1.y)` of the step estimator. -/
def step_h (bezier : CubicBezierSegment) : ℝ :=
  let v1 := bezier.ctrl1 - bezier.from_
  hypot v1.x v1.y

/-- The closed-form step `2 * sqrt(tolerance * |s2inv| / 3)` with
`s2inv = h / (v1 × v2)`, before the degeneracy and precision branches. -/
def step_t_raw (bezier : CubicBezierSegment) (tolerance : ℝ) : ℝ :=
  let s2inv := step_h bezier / step_cross bezier
  2 * Real.sqrt (tolerance * |s2inv| / 3)

/-- `no_inflection_flattening_step` from the source: the largest
parametric advance from the start of an inflection-free segment that
keeps the chord within `tolerance`, with the degenerate-direction branch
returning 1 and the `t >= 0.995` precision clamp returning 1. -/
def no_inflection_flattening_step (bezier : CubicBezierSegment) (tolerance : ℝ) : ℝ :=
  if step_cross bezier * step_h bezier = 0 then 1
  else
    let t := step_t_raw bezier tolerance
    if 0.995 ≤ t then 1 else t

/-- Modelled from the spec: `push` on the external fixed-capacity
(at most 2 elements) ordered container `UpToTwo`.  Appending to a full
container is a capacity-overflow failure, modelled as `none`. -/
def push2 (l : List ℝ) (x : ℝ) : Option (List ℝ) :=
  if l.length < 2 then some (l ++ [x]) else none

/-- The quadratic coefficients `(a, b, c)` of the inflection equation,
formed from the control-polygon difference vectors `pa`, `pb`, `pc` as
in the source. -/
def inflection_coefficients (bezier : CubicBezierSegment) : ℝ × ℝ × ℝ :=
  let pa := bezier.ctrl1 - bezier.from_
  let pb := bezier.ctrl2 - bezier.ctrl1 * (2 : ℝ) + bezier.from_
  let pc := bezier.to_ - bezier.ctrl2 * (3 : ℝ) + bezier.ctrl1 * (3 : ℝ) - bezier.from_
  (pb.x * pc.y - pb.y * pc.x,
   pa.x * pc.y - pa.y * pc.x,
   pa.x * pb.y - pa.y * pb.x)

/-- `in_range` from the source: `t >= 0.0 && t < 1.0`. -/
def in_range (t : ℝ) : Prop := 0 ≤ t ∧ t < 1

instance (t : ℝ) : Decidable (in_range t) := by
  unfold in_range; infer_instance

/-- `find_cubic_bezier_inflection_points` from the source, with the
`UpToTwo` pushes sequenced in the `Option` monad of `push2` (the result
is `none` exactly when some push would overflow the capacity-2
container). -/
def find_cubic_bezier_inflection_points (bezier : CubicBezierSegment) :
    Option (List ℝ) :=
  let abc := inflection_coefficients bezier
  let a := abc.1
  let b := abc.2.1
  let c := abc.2.2
  if a = 0 then
    if b = 0 then
      if c = 0 then push2 [] 0 else some []
    else push2 [] ((-c) / b)
  else
  let discriminant := b * b - 4 * a * c
  if discriminant < 0 then some []
  else if discriminant = 0 then
    let t := (-b) / (2 * a)
    if in_range t then push2 [] t else some []
  else
  let discriminant_sqrt := Real.sqrt discriminant
  let q := (if b < 0 then b - discriminant_sqrt else b + discriminant_sqrt) * (-0.5)
  let first_inflection := q / a
  let second_inflection := c / q
  let fs := if first_inflection > second_inflection
    then (second_inflection, first_inflection)
    else (first_inflection, second_inflection)
  match (if in_range fs.1 then push2 [] fs.1 else some []) with
  | none => none
  | some l => if in_range fs.2 then push2 l fs.2 else some l

/-- The inflection list as consumed by the flatteners (`UpToTwo` read
out in order; the overflow case never occurs, see the capacity
theorem). -/
def findInflections (bezier : CubicBezierSegment) : List ℝ :=
  (find_cubic_bezier_inflection_points bezier).getD []

/-- The stepping loop of `flatten_cubic_no_inflection`:
`while t < 1.0 { t = step(bezier); if t == 1.0 { break; }
bezier = bezier.after_split(t); call_back(bezier.from); }`,
with the emitted points collected in order.  The loop is fuel-indexed
(`none` = fuel exhausted before the loop exited); the carried `t` is the
loop variable checked by the `while` guard. -/
def flattenNILoop (tolerance : ℝ) : ℕ → CubicBezierSegment → ℝ → Option (List Point)
  | 0, _, _ => none
  | n + 1, bezier, t =>
    if t < 1 then
      let t' := no_inflection_flattening_step bezier tolerance
      if t' = 1 then some []
      else
        let next := bezier.after_split t'
        (flattenNILoop tolerance n next t').map (fun ps => next.from_ :: ps)
    else some []

/-- `flatten_cubic_no_inflection` from the source: run the stepping loop
from `t = 0`, then unconditionally emit the destination `end = bezier.to`
captured before the loop. -/
def flatten_cubic_no_inflection (bezier : CubicBezierSegment) (tolerance : ℝ)
    (n : ℕ) : Option (List Point) :=
  (flattenNILoop tolerance n bezier 0).map (fun ps => ps ++ [bezier.to_])

/-- `flatten_cubic_bezier` from the source (push API): split at the
first inflection if any, flatten the piece before it, remap and split at
the second inflection if any, flatten that piece, then flatten the
remaining working segment; the sink calls are collected in order.
Each inflection-free flattening gets the same fuel `n`. -/
def flatten_cubic_bezier (bezier : CubicBezierSegment) (tolerance : ℝ)
    (n : ℕ) : Option (List Point) :=
  let inflections := findInflections bezier
  match inflections[0]? with
  | none => flatten_cubic_no_inflection bezier tolerance n
  | some t1 =>
    let ba := bezier.split t1
    match inflections[1]? with
    | none =>
      match flatten_cubic_no_inflection ba.1 tolerance n,
            flatten_cubic_no_inflection ba.2 tolerance n with
      | some p1, some p2 => some (p1 ++ p2)
      | _, _ => none
    | some t2 =>
      let t2adj := (t2 - t1) / (1 - t1)
      let ba2 := ba.2.split t2adj
      match flatten_cubic_no_inflection ba.1 tolerance n,
            flatten_cubic_no_inflection ba2.1 tolerance n,
            flatten_cubic_no_inflection ba2.2 tolerance n with
      | some p1, some p2, some p3 => some (p1 ++ p2 ++ p3)
      | _, _, _ => none

/-- The state of the pull API's iterator, as in the source struct. -/
structure CubicFlatteningIter where
  remaining_curve : CubicBezierSegment
  current_curve : Option CubicBezierSegment
  next_inflection : Option ℝ
  following_inflection : Option ℝ
  tolerance : ℝ

/-- `CubicFlatteningIter::new` from the source: find the inflections,
record them, and if there is a first inflection split there, keep the
piece before it as the current curve and remap the second inflection
into the remainder's local parameterization; otherwise the whole curve
is the current curve. -/
def CubicFlatteningIter.new (bezier : CubicBezierSegment) (tolerance : ℝ) :
    CubicFlatteningIter :=
  let inflections := findInflections bezier
  let iter : CubicFlatteningIter :=
    { remaining_curve := bezier
      current_curve := none
      next_inflection := inflections[0]?
      following_inflection := inflections[1]?
      tolerance := tolerance }
  match inflections[0]? with
  | some t1 =>
    let ba := bezier.split t1
    let iter1 := { iter with current_curve := some ba.1, remaining_curve := ba.2 }
    match inflections[1]? with
    | some t2 => { iter1 with following_inflection := some ((t2 - t1) / (1 - t1)) }
    | none => iter1
  | none => { iter with current_curve := some bezier }

/-- `Iterator::next` for `CubicFlatteningIter` from the source, as a
state transformer returning the yielded element and the new state.
First block: if there is no current curve but a pending inflection,
materialize the next inflection-free piece and pop the inflection
queue.  Second block: one flattening step on the current curve. -/
def iterNext (s : CubicFlatteningIter) : Option Point × CubicFlatteningIter :=
  let s1 :=
    match s.current_curve with
    | some _ => s
    | none =>
      match s.next_inflection with
      | none => s
      | some _ =>
        let s2 :=
          match s.following_inflection with
          | some t2 =>
            let ba := s.remaining_curve.split t2
            { s with current_curve := some ba.1, remaining_curve := ba.2 }
          | none => { s with current_curve := some s.remaining_curve }
        { s2 with next_inflection := s2.following_inflection,
                  following_inflection := none }
  match s1.current_curve with
  | some sub_curve =>
    let t := no_inflection_flattening_step sub_curve s1.tolerance
    if 1 ≤ t then
      (some sub_curve.to_, { s1 with current_curve := none })
    else
      let next_curve := sub_curve.after_split t
      (some next_curve.from_, { s1 with current_curve := some next_curve })
  | none => (none, s1)

/-- Run `n` calls of `iterNext` from state `s`, collecting the yielded
points in order and returning the final state. -/
def iterRunN : ℕ → CubicFlatteningIter → List Point × CubicFlatteningIter
  | 0, s => ([], s)
  | n + 1, s =>
    let ps' := iterNext s
    let rest := iterRunN n ps'.2
    (ps'.1.toList ++ rest.1, rest.2)

theorem segment_ext {a b : CubicBezierSegment} (h0 : a.from_ = b.from_)
    (h1 : a.ctrl1 = b.ctrl1) (h2 : a.ctrl2 = b.ctrl2) (h3 : a.to_ = b.to_) :
    a = b := by
  cases a; cases b; cases h0; cases h1; cases h2; cases h3; rfl

@[simp] theorem after_split_to (c : CubicBezierSegment) (t : ℝ) :
    (c.after_split t).to_ = c.to_ := rfl

@[simp] theorem split_snd_to (c : CubicBezierSegment) (t : ℝ) :
    (c.split t).2.to_ = c.to_ := rfl

@[simp] theorem split_fst_from (c : CubicBezierSegment) (t : ℝ) :
    (c.split t).1.from_ = c.from_ := rfl

@[simp] theorem lerp_zero (a b : Point) : lerp a b 0 = a := by
  unfold lerp; apply Point.ext_xy <;> simp

theorem after_split_zero (c : CubicBezierSegment) : c.after_split 0 = c := by
  unfold CubicBezierSegment.after_split CubicBezierSegment.split
  apply segment_ext <;> simp

@[simp] theorem push2_nil (x : ℝ) : push2 [] x = some [x] := by simp [push2]

@[simp] theorem push2_single (a x : ℝ) : push2 [a] x = some [a, x] := by simp [push2]

/-- C9: in every execution path of `find_cubic_bezier_inflection_points`,
`push` is invoked on the capacity-2 `UpToTwo` container at most twice,
so no capacity-overflow failure can occur (the `Option`-modelled result
is never the overflow value `none`). -/
theorem claim_C9_push_capacity_safe (bezier : CubicBezierSegment) :
    (find_cubic_bezier_inflection_points bezier).isSome := by
  unfold find_cubic_bezier_inflection_points
  dsimp only
  split_ifs <;> simp_all [push2]

/-- C7: for a segment whose derived coefficients `a`, `b`, `c` (the
pairwise 2D cross products of the control-polygon derivative vectors)
are all exactly zero, `find_cubic_bezier_inflection_points` returns
exactly one value, namely `0.0`. -/
theorem claim_C7_degenerate_single_zero (bezier : CubicBezierSegment)
    (ha : (inflection_coefficients bezier).1 = 0)
    (hb : (inflection_coefficients bezier).2.1 = 0)
    (hc : (inflection_coefficients bezier).2.2 = 0) :
    find_cubic_bezier_inflection_points bezier = some [0] := by
  unfold find_cubic_bezier_inflection_points
  dsimp only
  rw [if_pos ha, if_pos hb, if_pos hc, push2_nil]

/-- A degenerate segment with all four points on the diagonal, used as a
concrete witness input. -/
def lineSeg : CubicBezierSegment :=
  ⟨⟨0, 0⟩, ⟨1, 1⟩, ⟨2, 2⟩, ⟨3, 3⟩⟩

theorem lineSeg_coefficients : inflection_coefficients lineSeg = (0, 0, 0) := by
  norm_num [inflection_coefficients, lineSeg]

/-- Witness for C7 at the concrete degenerate diagonal segment. -/
theorem claim_C7_witness :
    (inflection_coefficients lineSeg).1 = 0 ∧
      find_cubic_bezier_inflection_points lineSeg = some [0] :=
  ⟨by rw [lineSeg_coefficients], claim_C7_degenerate_single_zero lineSeg
    (by rw [lineSeg_coefficients]) (by rw [lineSeg_coefficients])
    (by rw [lineSeg_coefficients])⟩

/-- A segment whose inflection quadratic degenerates to the linear case
`a = 0`, `b ≠ 0` with root `-c/b = -1/2` outside `[0, 1)`. -/
def outOfRangeSeg : CubicBezierSegment :=
  ⟨⟨0, 0⟩, ⟨0, 1⟩, ⟨1, 2⟩, ⟨5, 3⟩⟩

theorem outOfRangeSeg_coefficients :
    inflection_coefficients outOfRangeSeg = (0, -2, -1) := by
  norm_num [inflection_coefficients, outOfRangeSeg]

/-- C2 (refuted): on the segment `outOfRangeSeg` the code takes the
`a == 0 && b != 0` branch and pushes `-c/b = -1/2` without any range
check, so the returned value lies outside `[0, 1)`. -/
theorem claim_C2_out_of_range_eval :
    find_cubic_bezier_inflection_points outOfRangeSeg = some [-(1 / 2)] ∧
      ¬ in_range (-(1 / 2)) := by
  constructor
  · unfold find_cubic_bezier_inflection_points
    rw [outOfRangeSeg_coefficients]
    norm_num
  · unfold in_range
    norm_num

theorem quadratic_q_spec (a b c : ℝ) (ha : a ≠ 0)
    (hD : 0 < b * b - 4 * a * c) :
    ∀ q : ℝ, q = (if b < 0 then b - Real.sqrt (b * b - 4 * a * c)
        else b + Real.sqrt (b * b - 4 * a * c)) * (-0.5) →
      q ≠ 0 ∧ q / a ≠ c / q := by
  intro q hq
  have hD' : (0 : ℝ) ≤ b * b - 4 * a * c := hD.le
  have hds : 0 < Real.sqrt (b * b - 4 * a * c) := Real.sqrt_pos.mpr hD
  have hds2 : Real.sqrt (b * b - 4 * a * c) ^ 2 = b * b - 4 * a * c :=
    Real.sq_sqrt hD'
  set ds := Real.sqrt (b * b - 4 * a * c) with hds_def
  have hqne : q ≠ 0 := by
    rcases lt_or_ge b 0 with hb | hb
    · rw [hq, if_pos hb]
      have : 0 < ds - b := by linarith
      nlinarith
    · rw [hq, if_neg (not_lt.mpr hb)]
      have : 0 < b + ds := by linarith
      nlinarith
  have hq2 : a * c < q ^ 2 := by
    rcases lt_or_ge b 0 with hb | hb
    · rw [hq, if_pos hb]
      nlinarith [mul_pos hds (show (0 : ℝ) < ds - b by linarith)]
    · rw [hq, if_neg (not_lt.mpr hb)]
      nlinarith [mul_pos hds (show (0 : ℝ) < ds + b by linarith)]
  refine ⟨hqne, fun h => ?_⟩
  rw [div_eq_div_iff ha hqne] at h
  nlinarith [hq2]

/-- C6: `find_cubic_bezier_inflection_points` returns at most 2 values,
and when it returns two they are strictly ascending. -/
theorem claim_C6_at_most_two_ascending (bezier : CubicBezierSegment)
    (l : List ℝ) (h : find_cubic_bezier_inflection_points bezier = some l) :
    l.length ≤ 2 ∧ ∀ x y : ℝ, l = [x, y] → x < y := by
  have single : ∀ t : ℝ, ([t] : List ℝ).length ≤ 2 ∧
      ∀ x y : ℝ, ([t] : List ℝ) = [x, y] → x < y := by
    intro t
    exact ⟨by simp, by intro x y hxy; simp at hxy⟩
  have empty : (([] : List Point).length ≤ 2) := by simp
  unfold find_cubic_bezier_inflection_points at h
  dsimp only at h
  by_cases ha : (inflection_coefficients bezier).1 = 0
  · rw [if_pos ha] at h
    by_cases hb : (inflection_coefficients bezier).2.1 = 0
    · rw [if_pos hb] at h
      by_cases hc : (inflection_coefficients bezier).2.2 = 0
      · rw [if_pos hc, push2_nil] at h
        cases h; exact single 0
      · rw [if_neg hc] at h
        cases h; exact ⟨by simp, by intro x y hxy; simp at hxy⟩
    · rw [if_neg hb, push2_nil] at h
      cases h; exact single _
  · rw [if_neg ha] at h
    set A := (inflection_coefficients bezier).1 with hA
    set B := (inflection_coefficients bezier).2.1 with hB
    set C := (inflection_coefficients bezier).2.2 with hC
    by_cases hd : B * B - 4 * A * C < 0
    · rw [if_pos hd] at h
      cases h; exact ⟨by simp, by intro x y hxy; simp at hxy⟩
    · rw [if_neg hd] at h
      by_cases hd0 : B * B - 4 * A * C = 0
      · rw [if_pos hd0] at h
        by_cases hr : in_range ((-B) / (2 * A))
        · rw [if_pos hr, push2_nil] at h
          cases h; exact single _
        · rw [if_neg hr] at h
          cases h; exact ⟨by simp, by intro x y hxy; simp at hxy⟩
      · rw [if_neg hd0] at h
        have hDpos : 0 < B * B - 4 * A * C :=
          lt_of_le_of_ne (not_lt.mp hd) (Ne.symm hd0)
        obtain ⟨hqne, hne⟩ := quadratic_q_spec A B C ha hDpos _ rfl
        set q := (if B < 0 then B - Real.sqrt (B * B - 4 * A * C)
          else B + Real.sqrt (B * B - 4 * A * C)) * (-0.5) with hq
        set fi := q / A with hfi
        set si := C / q with hsi
        by_cases hswap : fi > si
        · rw [if_pos hswap] at h
          dsimp only at h
          by_cases h1 : in_range si
          · rw [if_pos h1, push2_nil] at h
            dsimp only at h
            by_cases h2 : in_range fi
            · rw [if_pos h2, push2_single] at h
              cases h
              refine ⟨by simp, ?_⟩
              intro x y hxy
              obtain ⟨rfl, rfl⟩ : si = x ∧ fi = y := by simpa using hxy
              exact hswap
            · rw [if_neg h2] at h
              cases h; exact single _
          · rw [if_neg h1] at h
            dsimp only at h
            by_cases h2 : in_range fi
            · rw [if_pos h2, push2_nil] at h
              cases h; exact single _
            · rw [if_neg h2] at h
              cases h; exact ⟨by simp, by intro x y hxy; simp at hxy⟩
        · rw [if_neg hswap] at h
          dsimp only at h
          by_cases h1 : in_range fi
          · rw [if_pos h1, push2_nil] at h
            dsimp only at h
            by_cases h2 : in_range si
            · rw [if_pos h2, push2_single] at h
              cases h
              refine ⟨by simp, ?_⟩
              intro x y hxy
              obtain ⟨rfl, rfl⟩ : fi = x ∧ si = y := by simpa using hxy
              exact lt_of_le_of_ne (not_lt.mp hswap) hne
            · rw [if_neg h2] at h
              cases h; exact single _
          · rw [if_neg h1] at h
            dsimp only at h
            by_cases h2 : in_range si
            · rw [if_pos h2, push2_nil] at h
              cases h; exact single _
            · rw [if_neg h2] at h
              cases h; exact ⟨by simp, by intro x y hxy; simp at hxy⟩

/-- A segment whose inflection quadratic is `8t^2 - 6t + 1` with the two
roots `1/4` and `1/2`, both in range. -/
def twoRootSeg : CubicBezierSegment :=
  ⟨⟨0, 0⟩, ⟨1, 0⟩, ⟨2, 1⟩, ⟨-5, -3⟩⟩

theorem twoRootSeg_find :
    find_cubic_bezier_inflection_points twoRootSeg = some [1 / 4, 1 / 2] := by
  have hco : inflection_coefficients twoRootSeg = (8, -6, 1) := by
    norm_num [inflection_coefficients, twoRootSeg]
  have hs : Real.sqrt (4 : ℝ) = 2 := by
    rw [show (4 : ℝ) = 2 ^ 2 by norm_num]
    exact Real.sqrt_sq (by norm_num)
  unfold find_cubic_bezier_inflection_points
  rw [hco]
  dsimp only
  norm_num [hs, in_range, push2]

/-- Witness for C6: the theorem applied to `twoRootSeg`, whose
inflection list has the two ascending entries `1/4 < 1/2`. -/
theorem claim_C6_witness :
    ([(1 : ℝ) / 4, 1 / 2] : List ℝ).length ≤ 2 ∧
      ∀ x y : ℝ, ([(1 : ℝ) / 4, 1 / 2] : List ℝ) = [x, y] → x < y :=
  claim_C6_at_most_two_ascending twoRootSeg _ twoRootSeg_find

/-- The step estimator either returns exactly 1 or returns the raw
closed-form step, which is then below the 0.995 clamp and comes from a
nonzero `cross * hypot` product. -/
theorem step_eq_one_or (bezier : CubicBezierSegment) (tolerance : ℝ) :
    no_inflection_flattening_step bezier tolerance = 1 ∨
      (no_inflection_flattening_step bezier tolerance = step_t_raw bezier tolerance ∧
        step_t_raw bezier tolerance < 0.995 ∧
        step_cross bezier * step_h bezier ≠ 0) := by
  unfold no_inflection_flattening_step
  dsimp only
  split_ifs with h1 h2
  · exact Or.inl rfl
  · exact Or.inl rfl
  · exact Or.inr ⟨rfl, not_le.mp h2, h1⟩

theorem step_t_raw_pos (bezier : CubicBezierSegment) (tolerance : ℝ)
    (htol : 0 < tolerance)
    (hch : step_cross bezier * step_h bezier ≠ 0) :
    0 < step_t_raw bezier tolerance := by
  unfold step_t_raw
  dsimp only
  have hc : step_cross bezier ≠ 0 := fun h => hch (by rw [h]; ring)
  have hh : step_h bezier ≠ 0 := fun h => hch (by rw [h]; ring)
  have hne : step_h bezier / step_cross bezier ≠ 0 := div_ne_zero hh hc
  have habs : 0 < |step_h bezier / step_cross bezier| := abs_pos.mpr hne
  have harg : 0 < tolerance * |step_h bezier / step_cross bezier| / 3 := by positivity
  have := Real.sqrt_pos.mpr harg
  linarith

/-- The step estimator never returns a value that is `< 1` but `≥ 0.995`,
and never exceeds 1. -/
theorem step_le_one_of_ne (bezier : CubicBezierSegment) (tolerance : ℝ)
    (h : no_inflection_flattening_step bezier tolerance ≠ 1) :
    no_inflection_flattening_step bezier tolerance < 0.995 := by
  rcases step_eq_one_or bezier tolerance with h1 | ⟨h1, h2, _⟩
  · exact absurd h1 h
  · rw [h1]; exact h2

/-- C5: for tolerance > 0 the step estimator returns `t` with
`0 < t ≤ 1`; the result is exactly 1 whenever `cross * hypot` is exactly
zero and whenever the raw closed-form step is at least 0.995, and
otherwise lies strictly between 0 and 0.995. -/
theorem claim_C5_step_in_unit_interval (bezier : CubicBezierSegment)
    (tolerance : ℝ) (htol : 0 < tolerance) :
    (0 < no_inflection_flattening_step bezier tolerance ∧
      no_inflection_flattening_step bezier tolerance ≤ 1) ∧
    (step_cross bezier * step_h bezier = 0 →
      no_inflection_flattening_step bezier tolerance = 1) ∧
    (0.995 ≤ step_t_raw bezier tolerance →
      no_inflection_flattening_step bezier tolerance = 1) ∧
    (no_inflection_flattening_step bezier tolerance = 1 ∨
      (0 < no_inflection_flattening_step bezier tolerance ∧
        no_inflection_flattening_step bezier tolerance < 0.995)) := by
  unfold no_inflection_flattening_step
  dsimp only
  split_ifs with h1 h2
  · norm_num
  · norm_num
  · have hpos := step_t_raw_pos bezier tolerance htol h1
    have hlt : step_t_raw bezier tolerance < 0.995 := not_le.mp h2
    refine ⟨⟨hpos, by norm_num at hlt ⊢; linarith⟩, fun h => absurd h h1,
      fun h => absurd h h2, Or.inr ⟨hpos, hlt⟩⟩

theorem lineSeg_cross : step_cross lineSeg = 0 := by
  norm_num [step_cross, lineSeg]

/-- Witness for C5 at the degenerate diagonal segment (zero cross
product) with tolerance 1: the step is exactly 1. -/
theorem claim_C5_witness :
    (0 : ℝ) < 1 ∧ no_inflection_flattening_step lineSeg 1 = 1 :=
  ⟨by norm_num,
    (claim_C5_step_in_unit_interval lineSeg 1 (by norm_num)).2.1
      (by rw [lineSeg_cross, zero_mul])⟩

theorem iterNext_exhausted (s : CubicFlatteningIter)
    (hc : s.current_curve = none) (hn : s.next_inflection = none) :
    iterNext s = (none, s) := by
  obtain ⟨r, cc, ni, fi, tol⟩ := s
  simp only at hc hn
  subst hc; subst hn
  rfl

theorem iterNext_none_state (s : CubicFlatteningIter)
    (h : (iterNext s).1 = none) :
    s.current_curve = none ∧ s.next_inflection = none := by
  obtain ⟨r, cc, ni, fi, tol⟩ := s
  cases cc with
  | some c =>
    exfalso
    unfold iterNext at h
    dsimp only at h
    split_ifs at h
  | none =>
    cases ni with
    | none => exact ⟨rfl, rfl⟩
    | some t1 =>
      exfalso
      unfold iterNext at h
      cases fi <;> dsimp only at h <;> split_ifs at h

/-- C8: once `next` returns `None` (no current sub-curve and no pending
inflection), the state is unchanged and every subsequent `next` call
also returns `None` with the state still unchanged. -/
theorem claim_C8_exhaustion_is_stable (s : CubicFlatteningIter)
    (h : (iterNext s).1 = none) :
    (iterNext s).2 = s ∧ ∀ k : ℕ, iterRunN k s = ([], s) := by
  obtain ⟨hc, hn⟩ := iterNext_none_state s h
  have hstep : iterNext s = (none, s) := iterNext_exhausted s hc hn
  refine ⟨by rw [hstep], ?_⟩
  intro k
  induction k with
  | zero => rfl
  | succ n ih =>
    show ((iterNext s).1.toList ++ (iterRunN n (iterNext s).2).1,
      (iterRunN n (iterNext s).2).2) = ([], s)
    rw [hstep]
    simp [ih]

/-- Witness for C8 at a concrete exhausted iterator state. -/
theorem claim_C8_witness :
    (iterNext ⟨lineSeg, none, none, none, 1⟩).2 =
        (⟨lineSeg, none, none, none, 1⟩ : CubicFlatteningIter) ∧
      iterRunN 5 ⟨lineSeg, none, none, none, 1⟩ =
        ([], (⟨lineSeg, none, none, none, 1⟩ : CubicFlatteningIter)) := by
  have h := claim_C8_exhaustion_is_stable ⟨lineSeg, none, none, none, 1⟩ rfl
  exact ⟨h.1, h.2 5⟩

theorem iterRunN_add (a b : ℕ) (s : CubicFlatteningIter) :
    iterRunN (a + b) s =
      ((iterRunN a s).1 ++ (iterRunN b (iterRunN a s).2).1,
        (iterRunN b (iterRunN a s).2).2) := by
  induction a generalizing s with
  | zero => simp [iterRunN]
  | succ n ih =>
    have he : n + 1 + b = (n + b) + 1 := by omega
    rw [he]
    show ((iterNext s).1.toList ++ (iterRunN (n + b) (iterNext s).2).1,
      (iterRunN (n + b) (iterNext s).2).2) = _
    rw [ih]
    simp [iterRunN, List.append_assoc]

/-- One `next` call on a state with a current curve whose step is 1:
emit the current curve's destination, clear the current curve. -/
theorem iterNext_current_done (r c : CubicBezierSegment) (ni fi : Option ℝ)
    (tol : ℝ) (h1 : no_inflection_flattening_step c tol = 1) :
    iterNext ⟨r, some c, ni, fi, tol⟩ = (some c.to_, ⟨r, none, ni, fi, tol⟩) := by
  unfold iterNext
  dsimp only
  rw [if_pos (by rw [h1])]

/-- One `next` call on a state with a current curve whose step is not 1:
split, emit the new sub-curve's start, keep it as current. -/
theorem iterNext_current_step (r c : CubicBezierSegment) (ni fi : Option ℝ)
    (tol : ℝ) (h1 : no_inflection_flattening_step c tol ≠ 1) :
    iterNext ⟨r, some c, ni, fi, tol⟩ =
      (some ((c.after_split (no_inflection_flattening_step c tol)).from_),
        ⟨r, some (c.after_split (no_inflection_flattening_step c tol)), ni, fi, tol⟩) := by
  have hlt : no_inflection_flattening_step c tol < 1 :=
    lt_of_lt_of_le (step_le_one_of_ne c tol h1) (by norm_num)
  unfold iterNext
  dsimp only
  rw [if_neg (not_le.mpr hlt)]

/-- The inflection-free phase correspondence: if the push-side stepping
loop on curve `c` completes with point list `ps`, then `ps.length + 1`
pull-side `next` calls starting from a state whose current curve is `c`
yield exactly `ps` followed by `c`'s destination, and clear the current
curve while leaving the rest of the state unchanged. -/
theorem phase_run (tol : ℝ) : ∀ (n : ℕ) (c : CubicBezierSegment) (t : ℝ)
    (ps : List Point) (r : CubicBezierSegment) (ni fi : Option ℝ),
    t < 1 → flattenNILoop tol n c t = some ps →
    iterRunN (ps.length + 1) ⟨r, some c, ni, fi, tol⟩ =
      (ps ++ [c.to_], ⟨r, none, ni, fi, tol⟩) := by
  intro n
  induction n with
  | zero =>
    intro c t ps r ni fi ht hps
    exact absurd hps (by simp [flattenNILoop])
  | succ n ih =>
    intro c t ps r ni fi ht hps
    unfold flattenNILoop at hps
    rw [if_pos ht] at hps
    dsimp only at hps
    by_cases h1 : no_inflection_flattening_step c tol = 1
    · rw [if_pos h1] at hps
      obtain rfl : ([] : List Point) = ps := by
        simpa using hps
      show ((iterNext _).1.toList ++ (iterRunN 0 (iterNext _).2).1,
        (iterRunN 0 (iterNext _).2).2) = _
      rw [iterNext_current_done r c ni fi tol h1]
      simp [iterRunN]
    · rw [if_neg h1] at hps
      obtain ⟨ps', hps', rfl⟩ :
          ∃ ps', flattenNILoop tol n (c.after_split
              (no_inflection_flattening_step c tol)) (no_inflection_flattening_step c tol)
              = some ps' ∧
            (c.after_split (no_inflection_flattening_step c tol)).from_ :: ps' = ps := by
        rcases Option.map_eq_some'.mp hps with ⟨ps', h1', h2'⟩
        exact ⟨ps', h1', h2'⟩
      have hlt : no_inflection_flattening_step c tol < 1 :=
        lt_of_lt_of_le (step_le_one_of_ne c tol h1) (by norm_num)
      have ihr := ih (c.after_split (no_inflection_flattening_step c tol))
        (no_inflection_flattening_step c tol) ps' r ni fi hlt hps'
      show ((iterNext _).1.toList ++
          (iterRunN (ps'.length + 1) (iterNext _).2).1,
        (iterRunN (ps'.length + 1) (iterNext _).2).2) = _
      rw [iterNext_current_step r c ni fi tol h1]
      dsimp only
      rw [ihr]
      simp

/-- A `next` call on a state with no current curve but two pending
inflections behaves exactly like the call on the materialized state:
split the remaining curve at the (already remapped) second inflection,
make the piece before it current, and pop the inflection queue. -/
theorem iterNext_materialize_two (r : CubicBezierSegment) (t1 t2 tol : ℝ) :
    iterNext ⟨r, none, some t1, some t2, tol⟩ =
      iterNext ⟨(r.split t2).2, some (r.split t2).1, some t2, none, tol⟩ := rfl

/-- A `next` call on a state with no current curve and exactly one
pending inflection behaves exactly like the call on the materialized
state: the whole remaining curve becomes current, queue emptied. -/
theorem iterNext_materialize_one (r : CubicBezierSegment) (t1 tol : ℝ) :
    iterNext ⟨r, none, some t1, none, tol⟩ =
      iterNext ⟨r, some r, none, none, tol⟩ := rfl

theorem iterRunN_congr_next (s s' : CubicFlatteningIter)
    (h : iterNext s = iterNext s') (k : ℕ) :
    iterRunN (k + 1) s = iterRunN (k + 1) s' := by
  show ((iterNext s).1.toList ++ (iterRunN k (iterNext s).2).1,
      (iterRunN k (iterNext s).2).2) =
    ((iterNext s').1.toList ++ (iterRunN k (iterNext s').2).1,
      (iterRunN k (iterNext s').2).2)
  rw [h]

theorem flatten_no_inflection_elim (bezier : CubicBezierSegment)
    (tol : ℝ) (n : ℕ) (p : List Point)
    (h : flatten_cubic_no_inflection bezier tol n = some p) :
    ∃ qs, flattenNILoop tol n bezier 0 = some qs ∧ p = qs ++ [bezier.to_] := by
  rcases Option.map_eq_some'.mp h with ⟨qs, h1, h2⟩
  exact ⟨qs, h1, h2.symm⟩

/-- Push/pull agreement: whenever the push API completes with point
list `ps`, exactly `ps.length` pull-side `next` calls on a freshly
constructed iterator yield `ps`, and the iterator is then exhausted. -/
theorem push_iter_agree (bezier : CubicBezierSegment) (tol : ℝ) (n : ℕ)
    (ps : List Point) (h : flatten_cubic_bezier bezier tol n = some ps) :
    ∃ s', iterRunN ps.length (CubicFlatteningIter.new bezier tol) = (ps, s') ∧
      iterNext s' = (none, s') := by
  unfold flatten_cubic_bezier at h
  unfold CubicFlatteningIter.new
  rcases hfi : findInflections bezier with _ | ⟨t1, _ | ⟨t2, rest⟩⟩
  · -- no inflections
    rw [hfi] at h
    simp only [List.getElem?_nil] at h
    simp only [List.getElem?_nil]
    obtain ⟨qs, hq, rfl⟩ := flatten_no_inflection_elim bezier tol n ps h
    refine ⟨⟨bezier, none, none, none, tol⟩, ?_, iterNext_exhausted _ rfl rfl⟩
    have hrun := phase_run tol n bezier 0 qs bezier none none (by norm_num) hq
    simpa using hrun
  · -- one inflection
    rw [hfi] at h
    simp only [List.getElem?_cons_zero, List.getElem?_cons_succ,
      List.getElem?_nil] at h
    simp only [List.getElem?_cons_zero, List.getElem?_cons_succ,
      List.getElem?_nil]
    rcases hp1 : flatten_cubic_no_inflection (bezier.split t1).1 tol n with _ | p1
    · rw [hp1] at h; exact absurd h (by simp)
    rcases hp2 : flatten_cubic_no_inflection (bezier.split t1).2 tol n with _ | p2
    · rw [hp1, hp2] at h; exact absurd h (by simp)
    rw [hp1, hp2] at h
    obtain rfl : p1 ++ p2 = ps := by simpa using h
    obtain ⟨qs1, hq1, rfl⟩ := flatten_no_inflection_elim _ tol n p1 hp1
    obtain ⟨qs2, hq2, rfl⟩ := flatten_no_inflection_elim _ tol n p2 hp2
    refine ⟨⟨(bezier.split t1).2, none, none, none, tol⟩, ?_,
      iterNext_exhausted _ rfl rfl⟩
    have hlen : ((qs1 ++ [(bezier.split t1).1.to_]) ++
        (qs2 ++ [(bezier.split t1).2.to_])).length =
        (qs1.length + 1) + (qs2.length + 1) := by simp; omega
    rw [hlen, iterRunN_add]
    have hrun1 := phase_run tol n (bezier.split t1).1 0 qs1
      (bezier.split t1).2 (some t1) none (by norm_num) hq1
    rw [hrun1]
    have hcongr := iterRunN_congr_next _ _
      (iterNext_materialize_one (bezier.split t1).2 t1 tol) qs2.length
    dsimp only
    rw [hcongr]
    have hrun2 := phase_run tol n (bezier.split t1).2 0 qs2
      (bezier.split t1).2 none none (by norm_num) hq2
    rw [hrun2]
  · -- two inflections
    rw [hfi] at h
    simp only [List.getElem?_cons_zero, List.getElem?_cons_succ,
      List.getElem?_nil] at h
    simp only [List.getElem?_cons_zero, List.getElem?_cons_succ,
      List.getElem?_nil]
    rcases hp1 : flatten_cubic_no_inflection (bezier.split t1).1 tol n with _ | p1
    · rw [hp1] at h; exact absurd h (by simp)
    rcases hp2 : flatten_cubic_no_inflection
        (((bezier.split t1).2).split ((t2 - t1) / (1 - t1))).1 tol n with _ | p2
    · rw [hp1, hp2] at h; exact absurd h (by simp)
    rcases hp3 : flatten_cubic_no_inflection
        (((bezier.split t1).2).split ((t2 - t1) / (1 - t1))).2 tol n with _ | p3
    · rw [hp1, hp2, hp3] at h; exact absurd h (by simp)
    rw [hp1, hp2, hp3] at h
    obtain rfl : p1 ++ p2 ++ p3 = ps := by simpa using h
    obtain ⟨qs1, hq1, rfl⟩ := flatten_no_inflection_elim _ tol n p1 hp1
    obtain ⟨qs2, hq2, rfl⟩ := flatten_no_inflection_elim _ tol n p2 hp2
    obtain ⟨qs3, hq3, rfl⟩ := flatten_no_inflection_elim _ tol n p3 hp3
    refine ⟨⟨(((bezier.split t1).2).split ((t2 - t1) / (1 - t1))).2,
      none, none, none, tol⟩, ?_, iterNext_exhausted _ rfl rfl⟩
    have hlen : (((qs1 ++ [(bezier.split t1).1.to_]) ++
        (qs2 ++ [(((bezier.split t1).2).split ((t2 - t1) / (1 - t1))).1.to_])) ++
        (qs3 ++ [(((bezier.split t1).2).split ((t2 - t1) / (1 - t1))).2.to_])).length =
        ((qs1.length + 1) + (qs2.length + 1)) + (qs3.length + 1) := by simp; omega
    rw [hlen, iterRunN_add, iterRunN_add]
    have hrun1 := phase_run tol n (bezier.split t1).1 0 qs1
      (bezier.split t1).2 (some t1) (some ((t2 - t1) / (1 - t1)))
      (by norm_num) hq1
    rw [hrun1]
    have hcongr1 := iterRunN_congr_next _ _
      (iterNext_materialize_two (bezier.split t1).2 t1 ((t2 - t1) / (1 - t1)) tol)
      qs2.length
    dsimp only
    rw [hcongr1]
    have hrun2 := phase_run tol n (((bezier.split t1).2).split ((t2 - t1) / (1 - t1))).1 0
      qs2 (((bezier.split t1).2).split ((t2 - t1) / (1 - t1))).2
      (some ((t2 - t1) / (1 - t1))) none (by norm_num) hq2
    rw [hrun2]
    have hcongr2 := iterRunN_congr_next _ _
      (iterNext_materialize_one
        (((bezier.split t1).2).split ((t2 - t1) / (1 - t1))).2 ((t2 - t1) / (1 - t1)) tol)
      qs3.length
    dsimp only
    rw [hcongr2]
    have hrun3 := phase_run tol n
      (((bezier.split t1).2).split ((t2 - t1) / (1 - t1))).2 0 qs3
      (((bezier.split t1).2).split ((t2 - t1) / (1 - t1))).2 none none
      (by norm_num) hq3
    rw [hrun3]

/-- C1: for any cubic segment and tolerance > 0, whenever the push API
(`flatten_cubic_bezier`) completes with point sequence `ps`, the pull
API (`CubicFlatteningIter` advanced by `next`) yields exactly the same
points in the same order and count, followed by `None`. -/
theorem claim_C1_push_pull_equal (bezier : CubicBezierSegment) (tol : ℝ)
    (_htol : 0 < tol) (n : ℕ) (ps : List Point)
    (h : flatten_cubic_bezier bezier tol n = some ps) :
    ∃ s', iterRunN ps.length (CubicFlatteningIter.new bezier tol) = (ps, s') ∧
      (iterNext s').1 = none := by
  obtain ⟨s', h1, h2⟩ := push_iter_agree bezier tol n ps h
  exact ⟨s', h1, by rw [h2]⟩

/-- A segment with no inflections (`a = b = 0`, `c = 1`) whose first
flattening step is clamped to 1, giving a two-call push run. -/
def noInflSeg : CubicBezierSegment :=
  ⟨⟨0, 0⟩, ⟨1, 0⟩, ⟨2, 1⟩, ⟨3, 3⟩⟩

theorem noInflSeg_find :
    find_cubic_bezier_inflection_points noInflSeg = some [] := by
  have hco : inflection_coefficients noInflSeg = (0, 0, 1) := by
    norm_num [inflection_coefficients, noInflSeg]
  unfold find_cubic_bezier_inflection_points
  rw [hco]
  norm_num

theorem noInflSeg_findInflections : findInflections noInflSeg = [] := by
  rw [findInflections, noInflSeg_find]
  rfl

theorem noInflSeg_step : no_inflection_flattening_step noInflSeg 1 = 1 := by
  have hcross : step_cross noInflSeg = -1 := by
    norm_num [step_cross, noInflSeg]
  have hh : step_h noInflSeg = 1 := by
    norm_num [step_h, hypot, noInflSeg]
  have htraw : (0.995 : ℝ) ≤ step_t_raw noInflSeg 1 := by
    unfold step_t_raw
    rw [hcross, hh]
    have h13 : ((0.4975 : ℝ)) ≤ Real.sqrt (1 * |1 / (-1)| / 3) := by
      rw [show (1 * |1 / (-1 : ℝ)| / 3) = 1 / 3 by norm_num]
      rw [show (0.4975 : ℝ) = Real.sqrt (0.4975 ^ 2) by
        rw [Real.sqrt_sq (by norm_num)]]
      exact Real.sqrt_le_sqrt (by norm_num)
    norm_num at h13 ⊢
    linarith
  unfold no_inflection_flattening_step
  rw [if_neg (by rw [hcross, hh]; norm_num), if_pos htraw]

theorem noInflSeg_push :
    flatten_cubic_bezier noInflSeg 1 1 = some [⟨3, 3⟩] := by
  have hloop : flattenNILoop 1 1 noInflSeg 0 = some [] := by
    unfold flattenNILoop
    rw [if_pos (by norm_num : (0 : ℝ) < 1), noInflSeg_step]
    simp
  have hNI : flatten_cubic_no_inflection noInflSeg 1 1 = some [⟨3, 3⟩] := by
    unfold flatten_cubic_no_inflection
    rw [hloop]
    rfl
  unfold flatten_cubic_bezier
  rw [noInflSeg_findInflections]
  simp only [List.getElem?_nil]
  exact hNI

/-- Witness for C1: on `noInflSeg` with tolerance 1 the push API emits
exactly `[(3, 3)]`, and the theorem yields the matching pull run. -/
theorem claim_C1_witness :
    (0 : ℝ) < 1 ∧ ∃ s',
      iterRunN ([(⟨3, 3⟩ : Point)]).length (CubicFlatteningIter.new noInflSeg 1) =
        ([⟨3, 3⟩], s') ∧ (iterNext s').1 = none :=
  ⟨by norm_num,
    claim_C1_push_pull_equal noInflSeg 1 (by norm_num) 1 [⟨3, 3⟩] noInflSeg_push⟩

/-- Every completed push run's point list is a (possibly empty) prefix
followed by the original segment's destination point. -/
theorem push_decompose (bezier : CubicBezierSegment) (tol : ℝ) (n : ℕ)
    (ps : List Point) (h : flatten_cubic_bezier bezier tol n = some ps) :
    ∃ qs : List Point, ps = qs ++ [bezier.to_] := by
  unfold flatten_cubic_bezier at h
  rcases hfi : findInflections bezier with _ | ⟨t1, _ | ⟨t2, rest⟩⟩
  · rw [hfi] at h
    simp only [List.getElem?_nil] at h
    obtain ⟨qs, _, rfl⟩ := flatten_no_inflection_elim bezier tol n ps h
    exact ⟨qs, rfl⟩
  · rw [hfi] at h
    simp only [List.getElem?_cons_zero, List.getElem?_cons_succ,
      List.getElem?_nil] at h
    rcases hp1 : flatten_cubic_no_inflection (bezier.split t1).1 tol n with _ | p1
    · rw [hp1] at h; exact absurd h (by simp)
    rcases hp2 : flatten_cubic_no_inflection (bezier.split t1).2 tol n with _ | p2
    · rw [hp1, hp2] at h; exact absurd h (by simp)
    rw [hp1, hp2] at h
    obtain rfl : p1 ++ p2 = ps := by simpa using h
    obtain ⟨qs2, _, rfl⟩ := flatten_no_inflection_elim _ tol n p2 hp2
    exact ⟨p1 ++ qs2, by simp⟩
  · rw [hfi] at h
    simp only [List.getElem?_cons_zero, List.getElem?_cons_succ,
      List.getElem?_nil] at h
    rcases hp1 : flatten_cubic_no_inflection (bezier.split t1).1 tol n with _ | p1
    · rw [hp1] at h; exact absurd h (by simp)
    rcases hp2 : flatten_cubic_no_inflection
        (((bezier.split t1).2).split ((t2 - t1) / (1 - t1))).1 tol n with _ | p2
    · rw [hp1, hp2] at h; exact absurd h (by simp)
    rcases hp3 : flatten_cubic_no_inflection
        (((bezier.split t1).2).split ((t2 - t1) / (1 - t1))).2 tol n with _ | p3
    · rw [hp1, hp2, hp3] at h; exact absurd h (by simp)
    rw [hp1, hp2, hp3] at h
    obtain rfl : p1 ++ p2 ++ p3 = ps := by simpa using h
    obtain ⟨qs3, _, rfl⟩ := flatten_no_inflection_elim _ tol n p3 hp3
    exact ⟨p1 ++ p2 ++ qs3, by simp⟩

/-- `new` always sets a current sub-curve. -/
theorem new_shape (bezier : CubicBezierSegment) (tol : ℝ) :
    ∃ (r c : CubicBezierSegment) (ni fi : Option ℝ),
      CubicFlatteningIter.new bezier tol = ⟨r, some c, ni, fi, tol⟩ := by
  unfold CubicFlatteningIter.new
  rcases hfi : findInflections bezier with _ | ⟨t1, _ | ⟨t2, rest⟩⟩ <;>
    simp only [List.getElem?_nil, List.getElem?_cons_zero,
      List.getElem?_cons_succ]
  · exact ⟨bezier, bezier, none, none, rfl⟩
  · exact ⟨(bezier.split t1).2, (bezier.split t1).1, some t1, none, rfl⟩
  · exact ⟨(bezier.split t1).2, (bezier.split t1).1, some t1,
      some ((t2 - t1) / (1 - t1)), rfl⟩

/-- A `next` call on a state with a current curve always yields a point. -/
theorem iterNext_some_of_current (r c : CubicBezierSegment)
    (ni fi : Option ℝ) (tol : ℝ) :
    (iterNext ⟨r, some c, ni, fi, tol⟩).1 ≠ none := by
  by_cases h1 : no_inflection_flattening_step c tol = 1
  · rw [iterNext_current_done r c ni fi tol h1]
    simp
  · rw [iterNext_current_step r c ni fi tol h1]
    simp

/-- C10: both APIs emit at least one point: every completed push run
has a nonempty point list (the final destination emission is
unconditional), and the first `next` call on a freshly constructed
iterator always yields a point. -/
theorem claim_C10_at_least_one_point (bezier : CubicBezierSegment)
    (tol : ℝ) (_htol : 0 < tol) :
    (∀ (n : ℕ) (ps : List Point),
      flatten_cubic_bezier bezier tol n = some ps → 0 < ps.length) ∧
    (iterNext (CubicFlatteningIter.new bezier tol)).1 ≠ none := by
  constructor
  · intro n ps h
    obtain ⟨qs, rfl⟩ := push_decompose bezier tol n ps h
    simp
  · obtain ⟨r, c, ni, fi, hshape⟩ := new_shape bezier tol
    rw [hshape]
    exact iterNext_some_of_current r c ni fi tol

/-- Witness for C10 at `noInflSeg` with tolerance 1: the completed push
run `[(3, 3)]` is nonempty. -/
theorem claim_C10_witness :
    0 < ([(⟨3, 3⟩ : Point)]).length :=
  (claim_C10_at_least_one_point noInflSeg 1 (by norm_num)).1 1 _ noInflSeg_push

/-- 2D cross product of two vectors. -/
def crossP (a b : Point) : ℝ := a.x * b.y - a.y * b.x

/-- Euclidean norm of a point/vector. -/
def pnorm (p : Point) : ℝ := hypot p.x p.y

/-- First derivative of the cubic Bézier polynomial of `c` at `u`. -/
def d1 (c : CubicBezierSegment) (u : ℝ) : Point :=
  (c.ctrl1 - c.from_) * (3 * (1 - u) ^ 2) +
    (c.ctrl2 - c.ctrl1) * (6 * (1 - u) * u) +
    (c.to_ - c.ctrl2) * (3 * u ^ 2)

/-- Second derivative of the cubic Bézier polynomial of `c` at `u`. -/
def d2 (c : CubicBezierSegment) (u : ℝ) : Point :=
  (c.ctrl2 - c.ctrl1 * (2 : ℝ) + c.from_) * (6 * (1 - u)) +
    (c.to_ - c.ctrl2 * (2 : ℝ) + c.ctrl1) * (6 * u)

/-- Splitting off `[0,u]` and then `[0,t]` of the rest is splitting off
`[0, u + t(1-u)]`: de Casteljau subdivision composes exactly. -/
theorem after_split_comp (c : CubicBezierSegment) (u t : ℝ) :
    (c.after_split u).after_split t = c.after_split (u + t * (1 - u)) := by
  apply segment_ext <;> apply Point.ext_xy <;>
    simp [CubicBezierSegment.after_split, CubicBezierSegment.split, lerp] <;>
    ring

/-- The first control vector of the `[u,1]` remainder is
`(1-u)/3` times the derivative at `u`. -/
theorem v1_after (c : CubicBezierSegment) (u : ℝ) :
    (c.after_split u).ctrl1 - (c.after_split u).from_ =
      d1 c u * ((1 - u) / 3) := by
  apply Point.ext_xy <;>
    simp [CubicBezierSegment.after_split, CubicBezierSegment.split, lerp, d1] <;>
    ring

/-- The step estimator's cross product on the `[u,1]` remainder, in
terms of the original curve's derivatives at `u`. -/
theorem cross_after (c : CubicBezierSegment) (u : ℝ) :
    step_cross (c.after_split u) =
      (1 - u) ^ 3 / 18 * crossP (d2 c u) (d1 c u) := by
  simp [step_cross, crossP, CubicBezierSegment.after_split,
    CubicBezierSegment.split, lerp, d1, d2]
  ring

/-- The second derivative is affine in `u`. -/
theorem d2_affine (c : CubicBezierSegment) (u : ℝ) :
    d2 c u = d2 c 0 * (1 - u) + d2 c 1 * u := by
  apply Point.ext_xy <;> simp [d2] <;> ring

theorem sum_sq_nonneg (x y : ℝ) : 0 ≤ x * x + y * y := by
  nlinarith [mul_self_nonneg x, mul_self_nonneg y]

theorem pnorm_nonneg (p : Point) : 0 ≤ pnorm p := Real.sqrt_nonneg _

theorem pnorm_sq (p : Point) : pnorm p ^ 2 = p.x * p.x + p.y * p.y := by
  unfold pnorm hypot
  exact Real.sq_sqrt (sum_sq_nonneg _ _)

theorem pnorm_smul (p : Point) (s : ℝ) : pnorm (p * s) = pnorm p * |s| := by
  unfold pnorm hypot
  rw [show (p * s).x * (p * s).x + (p * s).y * (p * s).y =
    (p.x * p.x + p.y * p.y) * s ^ 2 by simp; ring]
  rw [Real.sqrt_mul (sum_sq_nonneg _ _), Real.sqrt_sq_eq_abs]

theorem pnorm_eq_zero (p : Point) (h : pnorm p = 0) : p.x = 0 ∧ p.y = 0 := by
  unfold pnorm hypot at h
  have h2 : p.x * p.x + p.y * p.y = 0 := by
    have := Real.sqrt_eq_zero (sum_sq_nonneg p.x p.y)
    exact this.mp h
  constructor <;> nlinarith

theorem dot_le_pnorm (a b : Point) :
    a.x * b.x + a.y * b.y ≤ pnorm a * pnorm b := by
  have h2 : (a.x * b.x + a.y * b.y) ^ 2 ≤
      (a.x * a.x + a.y * a.y) * (b.x * b.x + b.y * b.y) := by
    nlinarith [sq_nonneg (a.x * b.y - a.y * b.x)]
  rcases le_or_lt (a.x * b.x + a.y * b.y) 0 with hd | hd
  · exact le_trans hd (mul_nonneg (pnorm_nonneg a) (pnorm_nonneg b))
  · calc a.x * b.x + a.y * b.y
        = Real.sqrt ((a.x * b.x + a.y * b.y) ^ 2) :=
          (Real.sqrt_sq hd.le).symm
      _ ≤ Real.sqrt ((a.x * a.x + a.y * a.y) * (b.x * b.x + b.y * b.y)) :=
          Real.sqrt_le_sqrt h2
      _ = pnorm a * pnorm b := by
          unfold pnorm hypot
          rw [Real.sqrt_mul (sum_sq_nonneg _ _)]

theorem abs_crossP_le (a b : Point) : |crossP a b| ≤ pnorm a * pnorm b := by
  have h2 : crossP a b ^ 2 ≤
      (a.x * a.x + a.y * a.y) * (b.x * b.x + b.y * b.y) := by
    unfold crossP
    nlinarith [sq_nonneg (a.x * b.x + a.y * b.y)]
  calc |crossP a b| = Real.sqrt (crossP a b ^ 2) :=
        (Real.sqrt_sq_eq_abs _).symm
    _ ≤ Real.sqrt ((a.x * a.x + a.y * a.y) * (b.x * b.x + b.y * b.y)) :=
        Real.sqrt_le_sqrt h2
    _ = pnorm a * pnorm b := by
        unfold pnorm hypot
        rw [Real.sqrt_mul (sum_sq_nonneg _ _)]

theorem pnorm_add_le (a b : Point) : pnorm (a + b) ≤ pnorm a + pnorm b := by
  have hx : (a + b).x = a.x + b.x := rfl
  have hy : (a + b).y = a.y + b.y := rfl
  have hdot := dot_le_pnorm a b
  have ha2 := pnorm_sq a
  have hb2 := pnorm_sq b
  have hbound : (a.x + b.x) * (a.x + b.x) + (a.y + b.y) * (a.y + b.y) ≤
      (pnorm a + pnorm b) ^ 2 := by nlinarith
  calc pnorm (a + b)
      = Real.sqrt ((a.x + b.x) * (a.x + b.x) + (a.y + b.y) * (a.y + b.y)) := by
        unfold pnorm hypot; rw [hx, hy]
    _ ≤ Real.sqrt ((pnorm a + pnorm b) ^ 2) := Real.sqrt_le_sqrt hbound
    _ = pnorm a + pnorm b := Real.sqrt_sq (add_nonneg (pnorm_nonneg a) (pnorm_nonneg b))

theorem pnorm_convex (A B : Point) (u : ℝ) (h0 : 0 ≤ u) (h1 : u ≤ 1) :
    pnorm (A * (1 - u) + B * u) ≤ max (pnorm A) (pnorm B) := by
  have h2 : pnorm (A * (1 - u) + B * u) ≤ pnorm A * (1 - u) + pnorm B * u := by
    calc pnorm (A * (1 - u) + B * u)
        ≤ pnorm (A * (1 - u)) + pnorm (B * u) := pnorm_add_le _ _
      _ = pnorm A * (1 - u) + pnorm B * u := by
          rw [pnorm_smul, pnorm_smul, abs_of_nonneg (by linarith),
            abs_of_nonneg h0]
  have hA : pnorm A ≤ max (pnorm A) (pnorm B) := le_max_left _ _
  have hB : pnorm B ≤ max (pnorm A) (pnorm B) := le_max_right _ _
  nlinarith [pnorm_nonneg A, pnorm_nonneg B]

theorem step_h_eq (b : CubicBezierSegment) :
    step_h b = pnorm (b.ctrl1 - b.from_) := rfl

theorem step_h_after (c : CubicBezierSegment) (u : ℝ) (hu : u ≤ 1) :
    step_h (c.after_split u) = pnorm (d1 c u) * ((1 - u) / 3) := by
  rw [step_h_eq, v1_after, pnorm_smul,
    abs_of_nonneg (by linarith : (0 : ℝ) ≤ (1 - u) / 3)]

/-- Key estimate: away from the degenerate branch, the raw step on the
`[u,1]` remainder advances the global parameter by at least
`2 * sqrt(2 * tolerance / M)` where `M` bounds the second derivative. -/
theorem advance_bound (c : CubicBezierSegment) (tol : ℝ) (htol : 0 < tol)
    (u : ℝ) (h0 : 0 ≤ u) (h1 : u < 1)
    (hne : step_cross (c.after_split u) * step_h (c.after_split u) ≠ 0) :
    2 * Real.sqrt (2 * tol / max (pnorm (d2 c 0)) (pnorm (d2 c 1))) ≤
      step_t_raw (c.after_split u) tol * (1 - u) := by
  set M := max (pnorm (d2 c 0)) (pnorm (d2 c 1)) with hMdef
  have hu1 : 0 < 1 - u := by linarith
  have hcrossne : step_cross (c.after_split u) ≠ 0 :=
    fun h => hne (by rw [h, zero_mul])
  have hhne : step_h (c.after_split u) ≠ 0 :=
    fun h => hne (by rw [h, mul_zero])
  have hcr := cross_after c u
  have hh : step_h (c.after_split u) = pnorm (d1 c u) * ((1 - u) / 3) :=
    step_h_after c u h1.le
  set K := crossP (d2 c u) (d1 c u) with hKdef
  have hKne : K ≠ 0 := by
    intro h
    exact hcrossne (by rw [hcr, h, mul_zero])
  have hd1pos : 0 < pnorm (d1 c u) := by
    rcases (pnorm_nonneg (d1 c u)).lt_or_eq with h | h
    · exact h
    · exact absurd (by rw [hh, ← h, zero_mul]) hhne
  have hKpos : 0 < |K| := abs_pos.mpr hKne
  have hd2M : pnorm (d2 c u) ≤ M := by
    rw [d2_affine]
    exact pnorm_convex _ _ u h0 h1.le
  have hKle : |K| ≤ M * pnorm (d1 c u) :=
    le_trans (abs_crossP_le _ _)
      (mul_le_mul_of_nonneg_right hd2M (pnorm_nonneg _))
  have hMpos : 0 < M := by nlinarith
  have habs : |step_h (c.after_split u) / step_cross (c.after_split u)| =
      6 * pnorm (d1 c u) / ((1 - u) ^ 2 * |K|) := by
    rw [abs_div, hh, hcr]
    rw [abs_of_nonneg (mul_nonneg (pnorm_nonneg _)
      (by linarith : (0 : ℝ) ≤ (1 - u) / 3))]
    rw [abs_mul, abs_of_nonneg (by positivity : (0 : ℝ) ≤ (1 - u) ^ 3 / 18)]
    rw [div_eq_div_iff (by positivity) (by positivity)]
    ring
  have harg : tol * |step_h (c.after_split u) / step_cross (c.after_split u)| / 3 =
      (2 * tol * pnorm (d1 c u) / |K|) / (1 - u) ^ 2 := by
    rw [habs]
    field_simp
    ring
  have hAnn : 0 ≤ 2 * tol * pnorm (d1 c u) / |K| :=
    le_of_lt (div_pos (by nlinarith) hKpos)
  have hsq : step_t_raw (c.after_split u) tol * (1 - u) =
      2 * Real.sqrt (2 * tol * pnorm (d1 c u) / |K|) := by
    unfold step_t_raw
    dsimp only
    rw [harg, Real.sqrt_div hAnn, Real.sqrt_sq hu1.le]
    field_simp [hu1.ne']
    ring
  rw [hsq]
  have hle : 2 * tol / M ≤ 2 * tol * pnorm (d1 c u) / |K| := by
    rw [div_le_div_iff₀ hMpos hKpos]
    nlinarith
  have := Real.sqrt_le_sqrt hle
  linarith

theorem step_at_one (c : CubicBezierSegment) (tol : ℝ) :
    no_inflection_flattening_step (c.after_split 1) tol = 1 := by
  have h0 : step_h (c.after_split 1) = 0 := by
    rw [step_h_after c 1 le_rfl]
    norm_num
  unfold no_inflection_flattening_step
  rw [if_pos (by rw [h0, mul_zero])]

theorem flattenNILoop_guard (tol : ℝ) (n : ℕ) (b : CubicBezierSegment)
    (t t' : ℝ) (h : t < 1) (h' : t' < 1) :
    flattenNILoop tol n b t = flattenNILoop tol n b t' := by
  cases n with
  | zero => rfl
  | succ m =>
    unfold flattenNILoop
    rw [if_pos h, if_pos h']

/-- Fuel `n + 1` suffices for the stepping loop on the `[u,1]` remainder
once `1 - u` is at most `n` advances of the guaranteed minimum size. -/
theorem NI_terminates_aux (c : CubicBezierSegment) (tol : ℝ) (htol : 0 < tol) :
    ∀ n : ℕ, ∀ u : ℝ, 0 ≤ u → u ≤ 1 →
      1 - u ≤ n * (2 * Real.sqrt (2 * tol /
        max (pnorm (d2 c 0)) (pnorm (d2 c 1)))) →
      ∃ ps, flattenNILoop tol (n + 1) (c.after_split u) 0 = some ps := by
  intro n
  induction n with
  | zero =>
    intro u h0 h1 hbound
    have hu : u = 1 := by
      simp only [Nat.cast_zero, zero_mul] at hbound
      linarith
    subst hu
    refine ⟨[], ?_⟩
    unfold flattenNILoop
    rw [if_pos (by norm_num : (0 : ℝ) < 1)]
    dsimp only
    rw [if_pos (step_at_one c tol)]
  | succ n ih =>
    intro u h0 h1 hbound
    by_cases hstep : no_inflection_flattening_step (c.after_split u) tol = 1
    · refine ⟨[], ?_⟩
      unfold flattenNILoop
      rw [if_pos (by norm_num : (0 : ℝ) < 1)]
      dsimp only
      rw [if_pos hstep]
    · rcases step_eq_one_or (c.after_split u) tol with h | ⟨heq, hlt995, hne⟩
      · exact absurd h hstep
      have hu1 : u < 1 := by
        rcases eq_or_lt_of_le h1 with h | h
        · exfalso
          apply hne
          subst h
          rw [step_h_after c 1 le_rfl]
          norm_num
        · exact h
      have htpos : 0 < no_inflection_flattening_step (c.after_split u) tol := by
        rw [heq]
        exact step_t_raw_pos (c.after_split u) tol htol hne
      have htlt1 : no_inflection_flattening_step (c.after_split u) tol < 1 := by
        rw [heq]
        have : (0.995 : ℝ) < 1 := by norm_num
        linarith
      have hadv := advance_bound c tol htol u h0 hu1 hne
      have hδ : 2 * Real.sqrt (2 * tol /
          max (pnorm (d2 c 0)) (pnorm (d2 c 1))) ≤
          no_inflection_flattening_step (c.after_split u) tol * (1 - u) := by
        rw [heq]
        exact hadv
    -- the advanced global parameter
      have h0' : 0 ≤ u + no_inflection_flattening_step (c.after_split u) tol * (1 - u) := by
        nlinarith
      have h1' : u + no_inflection_flattening_step (c.after_split u) tol * (1 - u) ≤ 1 := by
        nlinarith
      have hbound' : 1 - (u + no_inflection_flattening_step (c.after_split u) tol * (1 - u)) ≤
          n * (2 * Real.sqrt (2 * tol /
            max (pnorm (d2 c 0)) (pnorm (d2 c 1)))) := by
        push_cast at hbound ⊢
        nlinarith
      obtain ⟨ps', hps'⟩ := ih
        (u + no_inflection_flattening_step (c.after_split u) tol * (1 - u))
        h0' h1' hbound'
      refine ⟨(c.after_split
        (u + no_inflection_flattening_step (c.after_split u) tol * (1 - u))).from_ :: ps', ?_⟩
      show flattenNILoop tol (n + 1 + 1) (c.after_split u) 0 = _
      unfold flattenNILoop
      rw [if_pos (by norm_num : (0 : ℝ) < 1)]
      dsimp only
      rw [if_neg hstep]
      rw [after_split_comp c u (no_inflection_flattening_step (c.after_split u) tol)]
      rw [flattenNILoop_guard tol (n + 1) _
        (no_inflection_flattening_step (c.after_split u) tol) 0 htlt1
        (by norm_num), hps']
      rfl

/-- The stepping loop always terminates for positive tolerance: some
finite fuel completes it. -/
theorem NI_terminates (c : CubicBezierSegment) (tol : ℝ) (htol : 0 < tol) :
    ∃ (n : ℕ) (ps : List Point), flattenNILoop tol n c 0 = some ps := by
  by_cases hM : max (pnorm (d2 c 0)) (pnorm (d2 c 1)) = 0
  · have h20 : pnorm (d2 c 0) = 0 := by
      have h := le_max_left (pnorm (d2 c 0)) (pnorm (d2 c 1))
      rw [hM] at h
      exact le_antisymm h (pnorm_nonneg _)
    obtain ⟨hx0, hy0⟩ := pnorm_eq_zero _ h20
    have hK0 : crossP (d2 c 0) (d1 c 0) = 0 := by
      unfold crossP
      rw [hx0, hy0]
      ring
    have hcross : step_cross c = 0 := by
      have h := cross_after c 0
      rw [after_split_zero] at h
      rw [h, hK0, mul_zero]
    have hstep : no_inflection_flattening_step c tol = 1 := by
      unfold no_inflection_flattening_step
      rw [if_pos (by rw [hcross, zero_mul])]
    refine ⟨1, [], ?_⟩
    unfold flattenNILoop
    rw [if_pos (by norm_num : (0 : ℝ) < 1)]
    dsimp only
    rw [if_pos hstep]
  · have hM0 : 0 ≤ max (pnorm (d2 c 0)) (pnorm (d2 c 1)) :=
      le_trans (pnorm_nonneg _) (le_max_left _ _)
    have hMpos : 0 < max (pnorm (d2 c 0)) (pnorm (d2 c 1)) :=
      lt_of_le_of_ne hM0 (Ne.symm hM)
    have hargpos : 0 < 2 * tol / max (pnorm (d2 c 0)) (pnorm (d2 c 1)) := by
      positivity
    have hδpos : 0 < 2 * Real.sqrt (2 * tol /
        max (pnorm (d2 c 0)) (pnorm (d2 c 1))) := by
      have := Real.sqrt_pos.mpr hargpos
      linarith
    have hbound : (1 : ℝ) - 0 ≤
        (⌈1 / (2 * Real.sqrt (2 * tol /
          max (pnorm (d2 c 0)) (pnorm (d2 c 1))))⌉₊ : ℝ) *
        (2 * Real.sqrt (2 * tol / max (pnorm (d2 c 0)) (pnorm (d2 c 1)))) := by
      have hle := Nat.le_ceil
        (1 / (2 * Real.sqrt (2 * tol / max (pnorm (d2 c 0)) (pnorm (d2 c 1)))))
      calc (1 : ℝ) - 0
          = (1 / (2 * Real.sqrt (2 * tol /
              max (pnorm (d2 c 0)) (pnorm (d2 c 1))))) *
            (2 * Real.sqrt (2 * tol /
              max (pnorm (d2 c 0)) (pnorm (d2 c 1)))) := by
            field_simp
        _ ≤ _ := mul_le_mul_of_nonneg_right hle hδpos.le
    obtain ⟨ps, hps⟩ := NI_terminates_aux c tol htol
      ⌈1 / (2 * Real.sqrt (2 * tol / max (pnorm (d2 c 0)) (pnorm (d2 c 1))))⌉₊
      0 le_rfl (by norm_num) hbound
    rw [after_split_zero] at hps
    exact ⟨_, ps, hps⟩

theorem flattenNILoop_mono (tol : ℝ) : ∀ (n : ℕ) (b : CubicBezierSegment)
    (t : ℝ) (ps : List Point),
    flattenNILoop tol n b t = some ps → flattenNILoop tol (n + 1) b t = some ps := by
  intro n
  induction n with
  | zero =>
    intro b t ps h
    exact absurd h (by simp [flattenNILoop])
  | succ n ih =>
    intro b t ps h
    unfold flattenNILoop at h ⊢
    by_cases hg : t < 1
    · rw [if_pos hg] at h ⊢
      dsimp only at h ⊢
      by_cases h1 : no_inflection_flattening_step b tol = 1
      · rw [if_pos h1] at h ⊢
        exact h
      · rw [if_neg h1] at h ⊢
        rcases Option.map_eq_some'.mp h with ⟨ps', hps', rfl⟩
        rw [ih _ _ _ hps']
        rfl
    · rw [if_neg hg] at h ⊢
      exact h

theorem flattenNILoop_le (tol : ℝ) (n m : ℕ) (h : n ≤ m)
    (b : CubicBezierSegment) (t : ℝ) (ps : List Point)
    (hl : flattenNILoop tol n b t = some ps) :
    flattenNILoop tol m b t = some ps := by
  induction m, h using Nat.le_induction with
  | base => exact hl
  | succ m hm ih => exact flattenNILoop_mono tol m b t ps ih

/-- The push API terminates: some finite fuel completes every phase. -/
theorem push_terminates (bezier : CubicBezierSegment) (tol : ℝ)
    (htol : 0 < tol) :
    ∃ (n : ℕ) (ps : List Point), flatten_cubic_bezier bezier tol n = some ps := by
  rcases hfi : findInflections bezier with _ | ⟨t1, _ | ⟨t2, rest⟩⟩
  · obtain ⟨n, qs, h⟩ := NI_terminates bezier tol htol
    refine ⟨n, qs ++ [bezier.to_], ?_⟩
    unfold flatten_cubic_bezier
    rw [hfi]
    simp only [List.getElem?_nil]
    unfold flatten_cubic_no_inflection
    rw [h]
    rfl
  · obtain ⟨n1, qs1, h1⟩ := NI_terminates (bezier.split t1).1 tol htol
    obtain ⟨n2, qs2, h2⟩ := NI_terminates (bezier.split t1).2 tol htol
    have h1' := flattenNILoop_le tol n1 (max n1 n2) (le_max_left _ _) _ _ _ h1
    have h2' := flattenNILoop_le tol n2 (max n1 n2) (le_max_right _ _) _ _ _ h2
    refine ⟨max n1 n2, (qs1 ++ [(bezier.split t1).1.to_]) ++
      (qs2 ++ [(bezier.split t1).2.to_]), ?_⟩
    unfold flatten_cubic_bezier
    rw [hfi]
    simp only [List.getElem?_cons_zero, List.getElem?_cons_succ,
      List.getElem?_nil]
    unfold flatten_cubic_no_inflection
    rw [h1', h2']
    rfl
  · obtain ⟨n1, qs1, h1⟩ := NI_terminates (bezier.split t1).1 tol htol
    obtain ⟨n2, qs2, h2⟩ := NI_terminates
      (((bezier.split t1).2).split ((t2 - t1) / (1 - t1))).1 tol htol
    obtain ⟨n3, qs3, h3⟩ := NI_terminates
      (((bezier.split t1).2).split ((t2 - t1) / (1 - t1))).2 tol htol
    have h1' := flattenNILoop_le tol n1 (max n1 (max n2 n3))
      (le_max_left _ _) _ _ _ h1
    have h2' := flattenNILoop_le tol n2 (max n1 (max n2 n3))
      (le_trans (le_max_left _ _) (le_max_right _ _)) _ _ _ h2
    have h3' := flattenNILoop_le tol n3 (max n1 (max n2 n3))
      (le_trans (le_max_right _ _) (le_max_right _ _)) _ _ _ h3
    refine ⟨max n1 (max n2 n3),
      ((qs1 ++ [(bezier.split t1).1.to_]) ++
        (qs2 ++ [(((bezier.split t1).2).split ((t2 - t1) / (1 - t1))).1.to_])) ++
        (qs3 ++ [(((bezier.split t1).2).split ((t2 - t1) / (1 - t1))).2.to_]), ?_⟩
    unfold flatten_cubic_bezier
    rw [hfi]
    simp only [List.getElem?_cons_zero, List.getElem?_cons_succ,
      List.getElem?_nil]
    unfold flatten_cubic_no_inflection
    rw [h1', h2', h3']
    rfl

/-- C3: for every segment and tolerance > 0, the push API terminates
(the stepping loops run finitely many iterations and some finite fuel
completes the whole run) and the pull iterator is finite (after
finitely many advances, `next` returns `None` and keeps doing so). -/
theorem claim_C3_terminates (bezier : CubicBezierSegment) (tol : ℝ)
    (htol : 0 < tol) :
    (∃ (n : ℕ) (ps : List Point), flatten_cubic_bezier bezier tol n = some ps) ∧
    (∃ (m : ℕ) (ps : List Point) (s' : CubicFlatteningIter),
      iterRunN m (CubicFlatteningIter.new bezier tol) = (ps, s') ∧
      iterNext s' = (none, s')) := by
  obtain ⟨n, ps, h⟩ := push_terminates bezier tol htol
  obtain ⟨s', h1, h2⟩ := push_iter_agree bezier tol n ps h
  exact ⟨⟨n, ps, h⟩, ⟨ps.length, ps, s', h1, h2⟩⟩

/-- Witness for C3 at `noInflSeg` with tolerance 1. -/
theorem claim_C3_witness :
    (0 : ℝ) < 1 ∧
      ((∃ (n : ℕ) (ps : List Point),
        flatten_cubic_bezier noInflSeg 1 n = some ps) ∧
      (∃ (m : ℕ) (ps : List Point) (s' : CubicFlatteningIter),
        iterRunN m (CubicFlatteningIter.new noInflSeg 1) = (ps, s') ∧
        iterNext s' = (none, s'))) :=
  ⟨by norm_num, claim_C3_terminates noInflSeg 1 (by norm_num)⟩

/-- C4: for every segment and tolerance > 0, the last point of every
completed push run is exactly the segment's destination `to`, and the
pull iterator's completed point sequence likewise ends exactly with
`to` (our modelled `split`/`after_split` preserve the destination
bit-exactly, as the claim assumes). -/
theorem claim_C4_last_point_is_destination (bezier : CubicBezierSegment)
    (tol : ℝ) (htol : 0 < tol) :
    (∀ (n : ℕ) (ps : List Point),
      flatten_cubic_bezier bezier tol n = some ps →
      ps.getLast? = some bezier.to_) ∧
    (∃ (m : ℕ) (ps : List Point) (s' : CubicFlatteningIter),
      iterRunN m (CubicFlatteningIter.new bezier tol) = (ps, s') ∧
      (iterNext s').1 = none ∧ ps.getLast? = some bezier.to_) := by
  have hpush : ∀ (n : ℕ) (ps : List Point),
      flatten_cubic_bezier bezier tol n = some ps →
      ps.getLast? = some bezier.to_ := by
    intro n ps h
    obtain ⟨qs, rfl⟩ := push_decompose bezier tol n ps h
    simp
  refine ⟨hpush, ?_⟩
  obtain ⟨n, ps, h⟩ := push_terminates bezier tol htol
  obtain ⟨s', h1, h2⟩ := push_iter_agree bezier tol n ps h
  exact ⟨ps.length, ps, s', h1, by rw [h2], hpush n ps h⟩

/-- Witness for C4 at `noInflSeg` with tolerance 1: the completed push
run is `[(3, 3)]` and its last point is the destination. -/
theorem claim_C4_witness :
    ([(⟨3, 3⟩ : Point)]).getLast? = some noInflSeg.to_ :=
  (claim_C4_last_point_is_destination noInflSeg 1 (by norm_num)).1
    1 _ noInflSeg_push
